import Mathlib

/-!
Verification of the CRYSTALS-Dilithium benchmark repository
(src/Code/SW_benchmark/Dilithium-2: params.h, poly.h, ntt.h, main.c).

The repository ships only the headers of the Dilithium core plus the
benchmark harness main.c.  Constants and harness behaviour are embedded
directly from the sources; operations whose bodies are not under src/
(ntt, invntt_tomont, montgomery_reduce, poly_power2round, poly_chknorm,
the pack/unpack family) are modelled from the specification, as flagged
in their doc comments.
-/

set_option maxRecDepth 2000

namespace Dilithium

/- ===================== Parameters (params.h) ===================== -/

/-- Size of the random seed in bytes (params.h line 22). -/
def SEEDBYTES : Nat := 32

/-- Size of the collision-resistant hash output (params.h line 23). -/
def CRHBYTES : Nat := 48

/-- Polynomial degree N (params.h line 24). -/
def Ncoef : Nat := 256

/-- Prime modulus (params.h line 25). -/
def Q : Nat := 8380417

/-- Number of dropped bits from t (params.h line 26). -/
def D : Nat := 13

/-- Root-of-unity constant (params.h line 27). -/
def ROOT_OF_UNITY : Nat := 1753

/-- Mode-specific parameters, params.h lines 29-68. -/
structure ModeParams where
  K : Nat
  L : Nat
  ETA : Nat
  TAU : Nat
  BETA : Nat
  GAMMA1 : Nat
  GAMMA2 : Nat
  OMEGA : Nat

/-- DILITHIUM_MODE == 2 block of params.h (lines 38-46). -/
def mode2 : ModeParams := ⟨4, 4, 2, 39, 78, 2 ^ 17, (Q - 1) / 88, 80⟩

/-- DILITHIUM_MODE == 3 block of params.h (lines 48-56). -/
def mode3 : ModeParams := ⟨6, 5, 4, 49, 196, 2 ^ 19, (Q - 1) / 32, 55⟩

/-- DILITHIUM_MODE == 5 block of params.h (lines 58-66). -/
def mode5 : ModeParams := ⟨8, 7, 2, 60, 120, 2 ^ 19, (Q - 1) / 32, 75⟩

/-- Packed size of t1 (params.h line 70). -/
def POLYT1_PACKEDBYTES : Nat := 320

/-- Packed size of t0 (params.h line 71). -/
def POLYT0_PACKEDBYTES : Nat := 416

/-- Packed size of the hint vector (params.h line 72), mode 2 values. -/
def POLYVECH_PACKEDBYTES : Nat := mode2.OMEGA + mode2.K

/-- Packed size of z (params.h lines 74-78), GAMMA1 = 2^17 branch. -/
def POLYZ_PACKEDBYTES : Nat := 576

/-- Packed size of an eta polynomial (params.h lines 86-90), ETA = 2 branch. -/
def POLYETA_PACKEDBYTES : Nat := 96

/-- Packed size of w1 (params.h lines 80-84), GAMMA2 = (Q-1)/88 branch. -/
def POLYW1_PACKEDBYTES : Nat := 192

/-- Public-key size (params.h line 92), mode 2. -/
def CRYPTO_PUBLICKEYBYTES : Nat := SEEDBYTES + mode2.K * POLYT1_PACKEDBYTES

/-- Signature size (params.h line 97), mode 2. -/
def CRYPTO_BYTES : Nat := SEEDBYTES + mode2.L * POLYZ_PACKEDBYTES + POLYVECH_PACKEDBYTES

/- ===================== Benchmark harness (main.c) ===================== -/

/-- Message length used by the harness (main.c line 41). -/
def MLEN : Nat := 256

/-- Declared size of the signed-message buffer sm in main (main.c line 137:
unsigned char sm[200+CRYPTO_BYTES]). -/
def SM_BUFLEN : Nat := 200 + CRYPTO_BYTES

/-- Modelled from the spec: the number of bytes crypto_sign writes into sm.
The body of crypto_sign is not under src/; the spec (section 6, signed-message
form) fixes sm = sigma followed by m with length siglen + msglen, and the
harness signs a message of MLEN bytes, so smlen = CRYPTO_BYTES + MLEN. -/
def SMLEN_WRITTEN : Nat := CRYPTO_BYTES + MLEN

/-- Observable results of one iteration of the benchmark loop in main
(main.c lines 145-164): return values of crypto_sign_keypair, crypto_sign and
crypto_sign_open, the recovered length mlen1, the random message m and the
recovered message m1. -/
structure IterResult where
  keypairRet : Int
  signRet : Int
  openRet : Int
  mlen1 : Nat
  m : List Nat
  m1 : List Nat

/-- Control flow of the loop body plus final return in main (main.c lines
145-173).  A nonzero crypto_sign_keypair result returns 1 (line 150; the
mis-grouped conditional there still branches exactly on keypair ret being
nonzero).  The return values of crypto_sign and crypto_sign_open are only
printed (lines 154, 159) and do not alter control flow.  A failed length
check or message comparison prints and returns 0 (lines 162-163).  Falling
through all iterations prints PASSED and returns 0 (line 172). -/
def mainLoop : List IterResult → Nat
  | [] => 0
  | it :: rest =>
    if it.keypairRet ≠ 0 then 1
    else if it.mlen1 ≠ MLEN then 0
    else if it.m1 ≠ it.m then 0
    else mainLoop rest

/- ===================== Rounding (poly.h line 59) ===================== -/

/-- q as an integer. -/
def QI : Int := (Q : Int)

/-- Modelled from the spec: scalar power2round (spec 4.D; poly.h line 59
declares poly_power2round only, the body is not under src/).  It returns the
unique pair (a1, a0) with a = a1 * 2^D + a0 and a0 in (-2^(D-1), 2^(D-1)]:
a1 = floor((a + 2^(D-1) - 1) / 2^D), a0 = a - a1 * 2^D. -/
def power2round (a : Int) : Int × Int :=
  let a1 : Int := (a + (2 ^ (D - 1) - 1)) / 2 ^ D
  (a1, a - a1 * 2 ^ D)

/-- Coefficient-wise power2round over a polynomial, as poly_power2round
(poly.h line 59) applies it to all N coefficients. -/
def poly_power2round (a : List Int) : List Int × List Int :=
  (a.map (fun c => (power2round c).1), a.map (fun c => (power2round c).2))

/- ===================== Norm check (poly.h line 69) ===================== -/

/-- One step of the chknorm scan: t is the absolute value of the centered
coefficient, computed by the branchless sign-flip on the high bit that the
spec describes (t = c - (c >> 31 AND 2c)), and the running flag is forced to
1 when t reaches the bound B. -/
def chknormStep (B r c : Int) : Int :=
  let t : Int := c - (if c < 0 then 2 * c else 0)
  if B ≤ t then 1 else r

/-- Modelled from the spec: poly_chknorm (spec 4.C; poly.h line 69 declares it
only, the body is not under src/).  Scans all N coefficients without early
exit, returning 1 when some centered coefficient has absolute value at least
B and 0 otherwise. -/
def poly_chknorm (a : List Int) (B : Int) : Int :=
  a.foldl (chknormStep B) 0

/- ===================== Bit packing (poly.h lines 88-110) ===================== -/

/-- Little-endian bits of the w-bit value n (bit-serialization primitive of
spec 4.F: every structured range has a fixed bit-width encoding). -/
def natToBits : Nat → Nat → List Bool
  | 0, _ => []
  | w + 1, n => (n % 2 == 1) :: natToBits w (n / 2)

/-- Value of a little-endian bit string. -/
def bitsToNat : List Bool → Nat
  | [] => 0
  | b :: l => (if b then 1 else 0) + 2 * bitsToNat l

/-- Concatenation of the w-bit little-endian encodings of a list of values. -/
def encodeChunks (w : Nat) : List Nat → List Bool
  | [] => []
  | n :: ns => natToBits w n ++ encodeChunks w ns

/-- Split a bit string into k chunks of w bits each and decode every chunk. -/
def decodeChunks (w : Nat) : Nat → List Bool → List Nat
  | 0, _ => []
  | k + 1, l => bitsToNat (l.take w) :: decodeChunks w k (l.drop w)

/-- Modelled from the spec: polyeta_pack (poly.h line 89 declares it only).
Each coefficient c in [-eta, eta] with eta = 2 is stored as the 3-bit value
eta - c (spec 4.F: 3 bits, biased by eta); the 768 bits fill 96 bytes. -/
def polyeta_pack (a : List Int) : List Nat :=
  decodeChunks 8 POLYETA_PACKEDBYTES (encodeChunks 3 (a.map (fun c => ((2 : Int) - c).toNat)))

/-- Modelled from the spec: polyeta_unpack (poly.h line 91 declares it only).
Decodes 3-bit values x and maps them back to eta - x. -/
def polyeta_unpack (r : List Nat) : List Int :=
  (decodeChunks 3 Ncoef (encodeChunks 8 r)).map (fun n => (2 : Int) - (n : Int))

/-- Modelled from the spec: polyt1_pack (poly.h line 94 declares it only).
Coefficients of t1 are 10-bit nonnegative values stored directly
(spec 4.F: 10 bits, 320 bytes). -/
def polyt1_pack (a : List Int) : List Nat :=
  decodeChunks 8 POLYT1_PACKEDBYTES (encodeChunks 10 (a.map Int.toNat))

/-- Modelled from the spec: polyt1_unpack (poly.h line 96 declares it only). -/
def polyt1_unpack (r : List Nat) : List Int :=
  (decodeChunks 10 Ncoef (encodeChunks 8 r)).map (fun n => (n : Int))

/-- Modelled from the spec: polyt0_pack (poly.h line 99 declares it only).
Coefficients of t0 lie in (-2^(D-1), 2^(D-1)] and are stored as the 13-bit
value 2^(D-1) - c (spec 4.F: 13 bits, 416 bytes; the bias is forced by the
range of t0 fixed in spec 4.D). -/
def polyt0_pack (a : List Int) : List Nat :=
  decodeChunks 8 POLYT0_PACKEDBYTES (encodeChunks 13 (a.map (fun c => ((4096 : Int) - c).toNat)))

/-- Modelled from the spec: polyt0_unpack (poly.h line 101 declares it only). -/
def polyt0_unpack (r : List Nat) : List Int :=
  (decodeChunks 13 Ncoef (encodeChunks 8 r)).map (fun n => (4096 : Int) - (n : Int))

/-- Modelled from the spec: polyz_pack (poly.h line 104 declares it only).
For GAMMA1 = 2^17 each coefficient c in (-GAMMA1, GAMMA1] is stored as the
18-bit value GAMMA1 - c (spec 4.E and 4.F: 18 bits, 576 bytes). -/
def polyz_pack (a : List Int) : List Nat :=
  decodeChunks 8 POLYZ_PACKEDBYTES (encodeChunks 18 (a.map (fun c => ((131072 : Int) - c).toNat)))

/-- Modelled from the spec: polyz_unpack (poly.h line 106 declares it only). -/
def polyz_unpack (r : List Nat) : List Int :=
  (decodeChunks 18 Ncoef (encodeChunks 8 r)).map (fun n => (131072 : Int) - (n : Int))

/- ===================== NTT (ntt.h lines 20-24) ===================== -/

/-- QINV = q^(-1) mod 2^32; the spec (4.A) gives the value 58728449. -/
def QINV : Int := 58728449

/-- Wrap an integer to its signed 32-bit representative, as the C cast to
int32_t does: the result is congruent mod 2^32 and lies in
[-2147483648, 2147483648). -/
def int32cast (a : Int) : Int := (a + 2147483648) % 4294967296 - 2147483648

/-- Modelled from the spec: montgomery_reduce (spec 4.A; reduce.h is not under
src/).  t = (int32_t)((int32_t)a * QINV); result = (a - t*q) >> 32, where the
arithmetic shift is floor division (exact here because 2^32 divides a - t*q). -/
def montgomery_reduce (a : Int) : Int :=
  (a - int32cast (int32cast a * QINV) * QI) / 4294967296

/-- 8-bit bit reversal brv (spec 4.B). -/
def brv8 (k : Nat) : Nat :=
  (List.range 8).foldl (fun acc i => 2 * acc + (k / 2 ^ i) % 2) 0

/-- The zetas table as a natural number: zeta^brv(k) in Montgomery form
(spec 4.B: a precomputed table of zeta^brv(k) in Montgomery form). -/
def zetasN (k : Nat) : Nat := ROOT_OF_UNITY ^ brv8 k * 2 ^ 32 % Q

/-- Modelled from the spec: the zetas table (spec 4.B). -/
def zetas (k : Nat) : Int := (zetasN k : Int)

/-- One forward (Cooley-Tukey) layer: each block of 2*len coefficients is
split into halves x, y; with one zeta per block, t = montgomery_reduce(z*y)
and the block becomes (x + t, x - t) (the butterfly of spec 4.B). -/
def ctLayer (len : Nat) : List Int → List Int → List Int
  | [], a => a
  | z :: zs, a =>
    let x := a.take len
    let y := (a.drop len).take len
    let t := y.map (fun b => montgomery_reduce (z * b))
    (x.zipWith (· + ·) t ++ x.zipWith (· - ·) t) ++ ctLayer len zs (a.drop (2 * len))

/-- One inverse (Gentleman-Sande) layer: each block of 2*len coefficients
(x, y) becomes (x + y, montgomery_reduce(z * (x - y))) (spec 4.B). -/
def gsLayer (len : Nat) : List Int → List Int → List Int
  | [], a => a
  | z :: zs, a =>
    let x := a.take len
    let y := (a.drop len).take len
    let u := x.zipWith (· + ·) y
    let v := (x.zipWith (· - ·) y).map (fun d => montgomery_reduce (z * d))
    (u ++ v) ++ gsLayer len zs (a.drop (2 * len))

/-- Zetas consumed by the forward layer of block half-length len: the running
index k of the reference loop takes the values 128/len .. 256/len - 1. -/
def fwdZetas (len : Nat) : List Int :=
  (List.range (128 / len)).map (fun i => zetas (128 / len + i))

/-- Zetas consumed by the inverse layer of block half-length len: minus zetas
with k decrementing from 256/len - 1 (spec 4.B, Gentleman-Sande). -/
def invZetas (len : Nat) : List Int :=
  (List.range (128 / len)).map (fun i => - zetas (256 / len - 1 - i))

/-- Modelled from the spec: the forward NTT (spec 4.B; ntt.h line 21 declares
ntt only, the body is not under src/).  In-place Cooley-Tukey butterflies
with halving block lengths 128, 64, ..., 1 over N = 256 and the bit-reversed
Montgomery zetas table.  The spec text says seven layers, but its own inverse
scaling constant F = 41978, which is 2^64 / 256 mod q, fixes eight halving
stages, as in the FIPS 204 reference NTT the spec describes. -/
def ntt (a : List Int) : List Int :=
  ctLayer 1 (fwdZetas 1) (ctLayer 2 (fwdZetas 2) (ctLayer 4 (fwdZetas 4)
    (ctLayer 8 (fwdZetas 8) (ctLayer 16 (fwdZetas 16) (ctLayer 32 (fwdZetas 32)
      (ctLayer 64 (fwdZetas 64) (ctLayer 128 (fwdZetas 128) a)))))))

/-- Inverse NTT scaling constant F = mont^2/256 mod q (spec 4.B). -/
def F : Int := 41978

/-- Modelled from the spec: invntt_tomont (spec 4.B; ntt.h line 23 declares it
only, the body is not under src/).  Gentleman-Sande layers with doubling
block lengths 1, 2, ..., 128 consuming minus the zetas in reverse order, then
multiplication by N^(-1) * R^2 in Montgomery form, i.e. every coefficient x
becomes montgomery_reduce(F * x). -/
def invntt_tomont (a : List Int) : List Int :=
  (gsLayer 128 (invZetas 128) (gsLayer 64 (invZetas 64) (gsLayer 32 (invZetas 32)
    (gsLayer 16 (invZetas 16) (gsLayer 8 (invZetas 8) (gsLayer 4 (invZetas 4)
      (gsLayer 2 (invZetas 2) (gsLayer 1 (invZetas 1) a)))))))).map
    (fun x => montgomery_reduce (F * x))

/- ============ Mod-q shadow of the NTT (for the congruence proofs) ============ -/

/-- The coefficient ring Z_q. -/
abbrev Zq : Type := ZMod Q

/-- R = 2^32 mod q, the Montgomery factor, as an element of Z_q. -/
def Rz : Zq := 4193792

/-- The inverse of R modulo q. -/
def RzInv : Zq := 8265825

/-- R^2 in Z_q: the value of the product of a forward zeta and the matching
inverse zeta. -/
def RRz : Zq := Rz * Rz

/-- F in Z_q. -/
def Fz : Zq := 41978

/-- Reduction of an integer coefficient list into Z_q. -/
def castP (a : List Int) : List Zq := a.map (fun (c : Int) => (c : Zq))

/-- Mod-q shadow of ctLayer: montgomery_reduce (z * b) becomes z * b * RzInv. -/
def ctLayerZ (len : Nat) : List Zq → List Zq → List Zq
  | [], a => a
  | z :: zs, a =>
    let x := a.take len
    let y := (a.drop len).take len
    let t := y.map (fun b => z * b * RzInv)
    (x.zipWith (· + ·) t ++ x.zipWith (· - ·) t) ++ ctLayerZ len zs (a.drop (2 * len))

/-- Mod-q shadow of gsLayer. -/
def gsLayerZ (len : Nat) : List Zq → List Zq → List Zq
  | [], a => a
  | z :: zs, a =>
    let x := a.take len
    let y := (a.drop len).take len
    let u := x.zipWith (· + ·) y
    let v := (x.zipWith (· - ·) y).map (fun d => z * d * RzInv)
    (u ++ v) ++ gsLayerZ len zs (a.drop (2 * len))

/-- Forward zetas in Z_q. -/
def fwdZetasZ (len : Nat) : List Zq := castP (fwdZetas len)

/-- Inverse zetas in Z_q. -/
def invZetasZ (len : Nat) : List Zq := castP (invZetas len)

/-- Mod-q shadow of ntt. -/
def nttZ (a : List Zq) : List Zq :=
  ctLayerZ 1 (fwdZetasZ 1) (ctLayerZ 2 (fwdZetasZ 2) (ctLayerZ 4 (fwdZetasZ 4)
    (ctLayerZ 8 (fwdZetasZ 8) (ctLayerZ 16 (fwdZetasZ 16) (ctLayerZ 32 (fwdZetasZ 32)
      (ctLayerZ 64 (fwdZetasZ 64) (ctLayerZ 128 (fwdZetasZ 128) a)))))))

/-- Mod-q shadow of invntt_tomont. -/
def invnttZ (a : List Zq) : List Zq :=
  (gsLayerZ 128 (invZetasZ 128) (gsLayerZ 64 (invZetasZ 64) (gsLayerZ 32 (invZetasZ 32)
    (gsLayerZ 16 (invZetasZ 16) (gsLayerZ 8 (invZetasZ 8) (gsLayerZ 4 (invZetasZ 4)
      (gsLayerZ 2 (invZetasZ 2) (gsLayerZ 1 (invZetasZ 1) a)))))))).map
    (fun x => Fz * RzInv * x)

/-- The first basis polynomial, used as the concrete NTT counterexample input. -/
def e0 : List Int := (1 : Int) :: List.replicate 255 0

/-- Concrete polynomial with coefficients in [-2, 2], exercising polyeta_pack. -/
def sampleEta : List Int := (List.range 256).map (fun i => ((i : Int) % 5) - 2)

/-- Concrete polynomial with coefficients in [0, 1024), exercising polyt1_pack. -/
def sampleT1 : List Int := (List.range 256).map (fun i => (i : Int) * 4)

/-- Concrete polynomial with coefficients in (-4096, 4096], exercising polyt0_pack. -/
def sampleT0 : List Int := (List.range 256).map (fun i => (i : Int) * 32 - 4095)

/-- Concrete polynomial with coefficients in (-131072, 131072], exercising polyz_pack. -/
def sampleZ : List Int := (List.range 256).map (fun i => (i : Int) * 1024 - 131071)

/-- Concrete polynomial with coefficients in [0, q), exercising poly_power2round. -/
def sampleT : List Int := (List.range 256).map (fun i => ((i : Int) * 32717) % 8380417)

/- ===================== Theorems ===================== -/

/-- C6: in every mode the rejection-sampling slack BETA equals TAU times ETA,
with the concrete values 78 = 39 * 2 (mode 2), 196 = 49 * 4 (mode 3) and
120 = 60 * 2 (mode 5) as defined in params.h. -/
theorem beta_eq_tau_mul_eta :
    (mode2.BETA = mode2.TAU * mode2.ETA ∧ mode2.TAU = 39 ∧ mode2.ETA = 2 ∧ mode2.BETA = 78) ∧
    (mode3.BETA = mode3.TAU * mode3.ETA ∧ mode3.TAU = 49 ∧ mode3.ETA = 4 ∧ mode3.BETA = 196) ∧
    (mode5.BETA = mode5.TAU * mode5.ETA ∧ mode5.TAU = 60 ∧ mode5.ETA = 2 ∧ mode5.BETA = 120) := by
  decide

/-- C7: ROOT_OF_UNITY = 1753 is a primitive 512th (= 2N-th, N = 256) root of
unity modulo Q = 8380417: its 512th power reduces to 1 and its 256th power
reduces to Q - 1, which is -1 mod Q. -/
theorem root_of_unity_order_512 :
    ROOT_OF_UNITY ^ 512 % Q = 1 ∧ ROOT_OF_UNITY ^ 256 % Q = Q - 1 ∧ 512 = 2 * Ncoef := by
  decide

/-- C9 fails on this code: the signed message written by crypto_sign is
smlen = CRYPTO_BYTES + MLEN = 2676 bytes, which exceeds the declared size
200 + CRYPTO_BYTES = 2620 of the sm buffer in main.c line 137 by 56 bytes. -/
theorem smlen_exceeds_sm_buffer :
    SMLEN_WRITTEN = 2676 ∧ SM_BUFLEN = 2620 ∧ SM_BUFLEN < SMLEN_WRITTEN := by
  decide

/-- C10: the harness loop returns 0 whenever every keypair call succeeds, even
when an iteration fails the recovered-length or recovered-message check (those
paths print and return 0, the same status as complete success), and an exit
status of 1 can only arise from a nonzero crypto_sign_keypair result. -/
theorem main_exit_status (outs : List IterResult) :
    ((∀ it ∈ outs, it.keypairRet = 0) → mainLoop outs = 0) ∧
    (mainLoop outs = 1 → ∃ it ∈ outs, it.keypairRet ≠ 0) := by
  induction outs with
  | nil =>
    exact ⟨fun _ => rfl, fun h => absurd h (by simp [mainLoop])⟩
  | cons it rest ih =>
    constructor
    · intro h
      have hk : it.keypairRet = 0 := h it (List.mem_cons_self it rest)
      have hrest : ∀ x ∈ rest, x.keypairRet = 0 := fun x hx => h x (List.mem_cons_of_mem it hx)
      simp only [mainLoop, hk]
      rw [if_neg (by simp)]
      by_cases h1 : it.mlen1 ≠ MLEN
      · rw [if_pos h1]
      · rw [if_neg h1]
        by_cases h2 : it.m1 ≠ it.m
        · rw [if_pos h2]
        · rw [if_neg h2]
          exact ih.1 hrest
    · intro h
      by_cases hk : it.keypairRet ≠ 0
      · exact ⟨it, List.mem_cons_self it rest, hk⟩
      · simp only [mainLoop, if_neg hk] at h
        by_cases h1 : it.mlen1 ≠ MLEN
        · rw [if_pos h1] at h
          exact absurd h (by decide)
        · rw [if_neg h1] at h
          by_cases h2 : it.m1 ≠ it.m
          · rw [if_pos h2] at h
            exact absurd h (by decide)
          · rw [if_neg h2] at h
            obtain ⟨x, hx, hxk⟩ := ih.2 h
            exact ⟨x, List.mem_cons_of_mem it hx, hxk⟩

/-- C10 witness: an iteration whose keypair call succeeds but whose recovered
length 7 and recovered message both mismatch makes main return 0. -/
theorem main_exit_status_witness :
    mainLoop [⟨0, 0, 0, 7, [1], [2]⟩] = 0 :=
  (main_exit_status [⟨0, 0, 0, 7, [1], [2]⟩]).1 (by decide)

/-- Scalar core of C4: for 0 ≤ c < q, power2round returns the unique pair
with c = a1 * 2^D + a0, a0 in (-2^(D-1), 2^(D-1)] and a1 nonnegative. -/
theorem power2round_scalar (c : Int) (h0 : 0 ≤ c) (h1 : c < QI) :
    c = (power2round c).1 * 2 ^ D + (power2round c).2 ∧
    -(2 ^ (D - 1) : Int) < (power2round c).2 ∧
    (power2round c).2 ≤ 2 ^ (D - 1) ∧
    0 ≤ (power2round c).1 := by
  have e1 : (power2round c).1 = (c + 4095) / 8192 := by norm_num [power2round, D]
  have e2 : (power2round c).2 = c - (c + 4095) / 8192 * 8192 := by norm_num [power2round, D]
  have hD : (2 : Int) ^ D = 8192 := by norm_num [D]
  have hD1 : (2 : Int) ^ (D - 1) = 4096 := by norm_num [D]
  have hQ : QI = 8380417 := by norm_num [QI, Q]
  rw [e1, e2, hD, hD1]
  rw [hQ] at h1
  omega

/-- C4: for a polynomial with all coefficients in [0, q), poly_power2round
splits each coefficient a into (a1, a0) with a = a1 * 2^D + a0,
a0 in (-2^(D-1), 2^(D-1)] and a1 nonnegative, where D = 13. -/
theorem poly_power2round_spec (a : List Int) (ha : ∀ c ∈ a, 0 ≤ c ∧ c < QI) :
    ∀ i, i < a.length →
      a.getD i 0 = (poly_power2round a).1.getD i 0 * 2 ^ D + (poly_power2round a).2.getD i 0 ∧
      -(2 ^ (D - 1) : Int) < (poly_power2round a).2.getD i 0 ∧
      (poly_power2round a).2.getD i 0 ≤ 2 ^ (D - 1) ∧
      0 ≤ (poly_power2round a).1.getD i 0 := by
  intro i hi
  have h1 : (poly_power2round a).1 = a.map (fun c => (power2round c).1) := rfl
  have h2 : (poly_power2round a).2 = a.map (fun c => (power2round c).2) := rfl
  have hi1 : i < (a.map (fun c => (power2round c).1)).length := by simpa using hi
  have hi2 : i < (a.map (fun c => (power2round c).2)).length := by simpa using hi
  rw [h1, h2, List.getD_eq_getElem a 0 hi, List.getD_eq_getElem _ 0 hi1,
    List.getD_eq_getElem _ 0 hi2]
  simp only [List.getElem_map]
  obtain ⟨hc0, hc1⟩ := ha a[i] (a.getElem_mem hi)
  exact power2round_scalar a[i] hc0 hc1

/-- C4 witness: poly_power2round satisfies the decomposition on the concrete
in-range polynomial sampleT. -/
theorem poly_power2round_spec_witness :
    (∀ c ∈ sampleT, 0 ≤ c ∧ c < QI) ∧
    (∀ i, i < sampleT.length →
      sampleT.getD i 0 =
        (poly_power2round sampleT).1.getD i 0 * 2 ^ D + (poly_power2round sampleT).2.getD i 0 ∧
      -(2 ^ (D - 1) : Int) < (poly_power2round sampleT).2.getD i 0 ∧
      (poly_power2round sampleT).2.getD i 0 ≤ 2 ^ (D - 1) ∧
      0 ≤ (poly_power2round sampleT).1.getD i 0) :=
  ⟨by decide, poly_power2round_spec sampleT (by decide)⟩

/-- The chknorm scan with accumulator r yields 1 when some coefficient has
absolute value at least B, and r otherwise. -/
theorem chknorm_foldl (B : Int) (l : List Int) (r : Int) :
    l.foldl (chknormStep B) r = if ∃ c ∈ l, B ≤ |c| then 1 else r := by
  induction l generalizing r with
  | nil => simp
  | cons c l ih =>
    rw [List.foldl_cons, ih]
    have habs : chknormStep B r c = if B ≤ |c| then 1 else r := by
      simp only [chknormStep]
      by_cases hc : c < 0
      · have hcc : c - 2 * c = -c := by ring
        rw [if_pos hc, hcc, abs_of_neg hc]
      · rw [if_neg hc, abs_of_nonneg (not_lt.mp hc)]
        simp
    by_cases h1 : ∃ x ∈ l, B ≤ |x|
    · obtain ⟨x, hx, hxB⟩ := h1
      rw [if_pos ⟨x, hx, hxB⟩, if_pos ⟨x, List.mem_cons_of_mem c hx, hxB⟩]
    · rw [if_neg h1, habs]
      by_cases h2 : B ≤ |c|
      · rw [if_pos h2, if_pos ⟨c, List.mem_cons_self c l, h2⟩]
      · rw [if_neg h2, if_neg]
        rintro ⟨x, hx, hxB⟩
        rcases List.mem_cons.mp hx with hxc | hxl
        · exact h2 (hxc ▸ hxB)
        · exact h1 ⟨x, hxl, hxB⟩

/-- C5: poly_chknorm returns 1 exactly when some centered coefficient of the
polynomial has absolute value at least B, and returns 0 exactly when every
coefficient has absolute value below B. -/
theorem poly_chknorm_spec (a : List Int) (B : Int) :
    (poly_chknorm a B = 1 ↔ ∃ c ∈ a, B ≤ |c|) ∧
    (poly_chknorm a B = 0 ↔ ∀ c ∈ a, |c| < B) := by
  have h : poly_chknorm a B = if ∃ c ∈ a, B ≤ |c| then 1 else 0 := chknorm_foldl B a 0
  constructor
  · constructor
    · intro h1
      by_contra hno
      rw [h, if_neg hno] at h1
      exact absurd h1 (by decide)
    · intro hex
      rw [h, if_pos hex]
  · constructor
    · intro h0 c hc
      by_contra hlt
      push_neg at hlt
      rw [h, if_pos ⟨c, hc, hlt⟩] at h0
      exact absurd h0 (by decide)
    · intro hall
      rw [h, if_neg]
      rintro ⟨x, hx, hxB⟩
      exact absurd hxB (not_le.mpr (hall x hx))

/-- natToBits always produces exactly w bits. -/
theorem length_natToBits (w n : Nat) : (natToBits w n).length = w := by
  induction w generalizing n with
  | zero => rfl
  | succ w ih => simp [natToBits, ih]

/-- Decoding the w-bit encoding of n < 2^w recovers n. -/
theorem bitsToNat_natToBits (w n : Nat) (h : n < 2 ^ w) : bitsToNat (natToBits w n) = n := by
  induction w generalizing n with
  | zero =>
    have : n = 0 := by simpa using h
    simp [this, natToBits, bitsToNat]
  | succ w ih =>
    have hh : n / 2 < 2 ^ w := by
      rw [pow_succ] at h
      omega
    simp only [natToBits, bitsToNat, ih (n / 2) hh]
    rcases Nat.mod_two_eq_zero_or_one n with h2 | h2 <;> simp [h2] <;> omega

/-- Encoding the value of a bit string with its own length recovers it. -/
theorem natToBits_bitsToNat (l : List Bool) : natToBits l.length (bitsToNat l) = l := by
  induction l with
  | nil => rfl
  | cons b l ih =>
    have hdiv : ((if b then 1 else 0) + 2 * bitsToNat l) / 2 = bitsToNat l := by
      cases b <;> simp <;> omega
    have hmod : ((if b then 1 else 0) + 2 * bitsToNat l) % 2 = if b then 1 else 0 := by
      cases b <;> simp <;> omega
    simp only [List.length_cons, natToBits, bitsToNat, hdiv, hmod, ih]
    cases b <;> simp

/-- Length of the concatenated w-bit encodings. -/
theorem length_encodeChunks (w : Nat) (ns : List Nat) :
    (encodeChunks w ns).length = ns.length * w := by
  induction ns with
  | nil => simp [encodeChunks]
  | cons n ns ih =>
    simp [encodeChunks, length_natToBits, ih]
    ring

/-- Chunkwise decoding inverts chunkwise encoding when every value fits. -/
theorem decodeChunks_encodeChunks (w : Nat) (ns : List Nat) (h : ∀ n ∈ ns, n < 2 ^ w) :
    decodeChunks w ns.length (encodeChunks w ns) = ns := by
  induction ns with
  | nil => rfl
  | cons n ns ih =>
    have hlen : (natToBits w n).length = w := length_natToBits w n
    have ht : (natToBits w n ++ encodeChunks w ns).take w = natToBits w n := by
      have h0 := List.take_left (natToBits w n) (encodeChunks w ns)
      rwa [hlen] at h0
    have hd : (natToBits w n ++ encodeChunks w ns).drop w = encodeChunks w ns := by
      have h0 := List.drop_left (natToBits w n) (encodeChunks w ns)
      rwa [hlen] at h0
    simp only [encodeChunks, List.length_cons, decodeChunks, ht, hd]
    rw [bitsToNat_natToBits w n (h n (List.mem_cons_self n ns)),
      ih (fun x hx => h x (List.mem_cons_of_mem n hx))]

/-- Chunkwise encoding inverts chunkwise decoding of a k*w bit string. -/
theorem encodeChunks_decodeChunks (w k : Nat) (l : List Bool) (hl : l.length = k * w) :
    encodeChunks w (decodeChunks w k l) = l := by
  induction k generalizing l with
  | zero =>
    have : l = [] := List.length_eq_zero.mp (by simpa using hl)
    simp [this, decodeChunks, encodeChunks]
  | succ k ih =>
    have hll : l.length = k * w + w := by rw [hl]; ring
    have htw : (l.take w).length = w := by
      rw [List.length_take]
      omega
    have h1 : natToBits w (bitsToNat (l.take w)) = l.take w := by
      have h0 := natToBits_bitsToNat (l.take w)
      rwa [htw] at h0
    simp only [decodeChunks, encodeChunks, h1]
    rw [ih (l.drop w) (by rw [List.length_drop]; omega)]
    exact List.take_append_drop w l

/-- Generic shape of all four pack/unpack pairs: bias each of the 256
coefficients into a w-bit value, serialize to bits, regroup into bytes, and
back; when every biased value fits in w bits and the bias is undone by the
unbias map, the composite is the identity. -/
theorem pack_roundtrip_general (w bytes : Nat) (f : Int → Nat) (g : Nat → Int)
    (a : List Int) (ha : a.length = 256) (hbytes : 256 * w = bytes * 8)
    (hf : ∀ c ∈ a, f c < 2 ^ w) (hfg : ∀ c ∈ a, g (f c) = c) :
    (decodeChunks w Ncoef (encodeChunks 8 (decodeChunks 8 bytes (encodeChunks w (a.map f))))).map g
      = a := by
  have hlen1 : (encodeChunks w (a.map f)).length = bytes * 8 := by
    rw [length_encodeChunks, List.length_map, ha]
    omega
  have h2 : encodeChunks 8 (decodeChunks 8 bytes (encodeChunks w (a.map f)))
      = encodeChunks w (a.map f) :=
    encodeChunks_decodeChunks 8 bytes _ hlen1
  rw [h2]
  have hN : Ncoef = (a.map f).length := by simp [Ncoef, ha]
  have h3 : decodeChunks w Ncoef (encodeChunks w (a.map f)) = a.map f := by
    rw [hN]
    refine decodeChunks_encodeChunks w (a.map f) ?_
    intro n hn
    obtain ⟨c, hc, rfl⟩ := List.mem_map.mp hn
    exact hf c hc
  rw [h3, List.map_map]
  calc a.map (g ∘ f) = a.map id := List.map_congr_left (fun c hc => hfg c hc)
    _ = a := List.map_id a

/-- C2: on coefficients in the valid range of each encoding, the four
pack/unpack pairs of poly.h round-trip exactly: polyeta, polyt1, polyt0 and
polyz unpacking undo the corresponding packing. -/
theorem pack_unpack_roundtrip (a : List Int) (ha : a.length = 256) :
    ((∀ c ∈ a, -2 ≤ c ∧ c ≤ 2) → polyeta_unpack (polyeta_pack a) = a) ∧
    ((∀ c ∈ a, 0 ≤ c ∧ c < 1024) → polyt1_unpack (polyt1_pack a) = a) ∧
    ((∀ c ∈ a, -4096 < c ∧ c ≤ 4096) → polyt0_unpack (polyt0_pack a) = a) ∧
    ((∀ c ∈ a, -131071 ≤ c ∧ c ≤ 131072) → polyz_unpack (polyz_pack a) = a) := by
  refine ⟨fun h => ?_, fun h => ?_, fun h => ?_, fun h => ?_⟩
  · have hgen := pack_roundtrip_general 3 96 (fun c => ((2 : Int) - c).toNat)
      (fun n => (2 : Int) - (n : Int)) a ha (by norm_num)
      (fun c hc => by
        have := h c hc
        show ((2 : Int) - c).toNat < 2 ^ 3
        omega)
      (fun c hc => by
        have := h c hc
        show (2 : Int) - (((2 : Int) - c).toNat : Int) = c
        rw [Int.toNat_of_nonneg (by omega : (0 : Int) ≤ 2 - c)]
        ring)
    simpa only [polyeta_pack, polyeta_unpack, POLYETA_PACKEDBYTES] using hgen
  · have hgen := pack_roundtrip_general 10 320 Int.toNat (fun n => (n : Int)) a ha (by norm_num)
      (fun c hc => by
        have := h c hc
        show c.toNat < 2 ^ 10
        omega)
      (fun c hc => by
        have := h c hc
        show ((c.toNat : Nat) : Int) = c
        omega)
    simpa only [polyt1_pack, polyt1_unpack, POLYT1_PACKEDBYTES] using hgen
  · have hgen := pack_roundtrip_general 13 416 (fun c => ((4096 : Int) - c).toNat)
      (fun n => (4096 : Int) - (n : Int)) a ha (by norm_num)
      (fun c hc => by
        have := h c hc
        show ((4096 : Int) - c).toNat < 2 ^ 13
        omega)
      (fun c hc => by
        have := h c hc
        show (4096 : Int) - (((4096 : Int) - c).toNat : Int) = c
        rw [Int.toNat_of_nonneg (by omega : (0 : Int) ≤ 4096 - c)]
        ring)
    simpa only [polyt0_pack, polyt0_unpack, POLYT0_PACKEDBYTES] using hgen
  · have hgen := pack_roundtrip_general 18 576 (fun c => ((131072 : Int) - c).toNat)
      (fun n => (131072 : Int) - (n : Int)) a ha (by norm_num)
      (fun c hc => by
        have := h c hc
        show ((131072 : Int) - c).toNat < 2 ^ 18
        omega)
      (fun c hc => by
        have := h c hc
        show (131072 : Int) - (((131072 : Int) - c).toNat : Int) = c
        rw [Int.toNat_of_nonneg (by omega : (0 : Int) ≤ 131072 - c)]
        ring)
    simpa only [polyz_pack, polyz_unpack, POLYZ_PACKEDBYTES] using hgen

/-- C2 witness: all four round-trips hold on concrete in-range polynomials. -/
theorem pack_unpack_roundtrip_witness :
    polyeta_unpack (polyeta_pack sampleEta) = sampleEta ∧
    polyt1_unpack (polyt1_pack sampleT1) = sampleT1 ∧
    polyt0_unpack (polyt0_pack sampleT0) = sampleT0 ∧
    polyz_unpack (polyz_pack sampleZ) = sampleZ :=
  ⟨(pack_unpack_roundtrip sampleEta (by decide)).1 (by decide),
   (pack_unpack_roundtrip sampleT1 (by decide)).2.1 (by decide),
   (pack_unpack_roundtrip sampleT0 (by decide)).2.2.1 (by decide),
   (pack_unpack_roundtrip sampleZ (by decide)).2.2.2 (by decide)⟩

/-- The signed 32-bit wrap is a congruence mod 2^32. -/
theorem int32cast_modeq (x : Int) : int32cast x ≡ x [ZMOD 4294967296] := by
  show int32cast x % 4294967296 = x % 4294967296
  unfold int32cast
  omega

/-- Core Montgomery property: montgomery_reduce a times 2^32 is congruent to a
mod q, so montgomery_reduce divides out one factor R = 2^32 modulo q. -/
theorem montgomery_reduce_mont (a : Int) :
    montgomery_reduce a * 4294967296 ≡ a [ZMOD QI] := by
  have h1 : int32cast (int32cast a * QINV) ≡ a * QINV [ZMOD 4294967296] :=
    (int32cast_modeq (int32cast a * QINV)).trans ((int32cast_modeq a).mul_right QINV)
  have hq : QINV * QI ≡ 1 [ZMOD 4294967296] := by decide
  have h3 : int32cast (int32cast a * QINV) * QI ≡ a * QINV * QI [ZMOD 4294967296] :=
    h1.mul_right QI
  have h4 : a * QINV * QI ≡ a * 1 [ZMOD 4294967296] := by
    have h0 := hq.mul_left a
    calc a * QINV * QI = a * (QINV * QI) := by ring
      _ ≡ a * 1 [ZMOD 4294967296] := h0
  have h5 : int32cast (int32cast a * QINV) * QI ≡ a [ZMOD 4294967296] := by
    simpa using h3.trans h4
  have h2 : (4294967296 : Int) ∣ (a - int32cast (int32cast a * QINV) * QI) :=
    h5.dvd
  have h6 : montgomery_reduce a * 4294967296 = a - int32cast (int32cast a * QINV) * QI := by
    have h0 : montgomery_reduce a
        = (a - int32cast (int32cast a * QINV) * QI) / 4294967296 := rfl
    rw [h0]
    exact Int.ediv_mul_cancel h2
  rw [h6]
  have hz : int32cast (int32cast a * QINV) * QI ≡ 0 [ZMOD QI] :=
    Int.modEq_zero_iff_dvd.mpr (dvd_mul_left QI (int32cast (int32cast a * QINV)))
  calc a - int32cast (int32cast a * QINV) * QI ≡ a - 0 [ZMOD QI] :=
      (Int.ModEq.refl a).sub hz
    _ = a := by rw [sub_zero]

/-- In Z_q, montgomery_reduce is multiplication by the inverse Montgomery
factor. -/
theorem cast_montgomery_reduce (a : Int) :
    ((montgomery_reduce a : Int) : Zq) = (a : Zq) * RzInv := by
  have h := montgomery_reduce_mont a
  have h2 : ((montgomery_reduce a * 4294967296 : Int) : Zq) = ((a : Int) : Zq) :=
    (ZMod.intCast_eq_intCast_iff _ _ _).mpr h
  push_cast at h2
  have hR : (4294967296 : Zq) = Rz := by decide
  have hRR : Rz * RzInv = 1 := by decide
  calc ((montgomery_reduce a : Int) : Zq)
      = ((montgomery_reduce a : Int) : Zq) * (Rz * RzInv) := by rw [hRR, mul_one]
    _ = (((montgomery_reduce a : Int) : Zq) * Rz) * RzInv := by rw [mul_assoc]
    _ = (a : Zq) * RzInv := by rw [← hR, h2]

/-- Reduction into Z_q preserves list length. -/
theorem castP_length (a : List Int) : (castP a).length = a.length := by
  simp only [castP]
  exact List.length_map a _

/-- Reduction into Z_q commutes with append. -/
theorem castP_append (a b : List Int) : castP (a ++ b) = castP a ++ castP b := by
  simp only [castP]
  exact List.map_append _ a b

/-- Reduction into Z_q commutes with take. -/
theorem castP_take (n : Nat) (a : List Int) : castP (a.take n) = (castP a).take n := by
  simp only [castP]
  exact List.map_take _ a n

/-- Reduction into Z_q commutes with drop. -/
theorem castP_drop (n : Nat) (a : List Int) : castP (a.drop n) = (castP a).drop n := by
  simp only [castP]
  exact List.map_drop _ a n

/-- Reduction into Z_q pushes through zipWith of compatible operations. -/
theorem castP_zipWith (f : Int → Int → Int) (g : Zq → Zq → Zq)
    (hfg : ∀ a b : Int, ((f a b : Int) : Zq) = g (a : Zq) (b : Zq))
    (x y : List Int) :
    castP (List.zipWith f x y) = List.zipWith g (castP x) (castP y) := by
  induction x generalizing y with
  | nil => rfl
  | cons a x ih =>
    cases y with
    | nil => rfl
    | cons b y =>
      show ((f a b : Int) : Zq) :: castP (List.zipWith f x y)
          = g (a : Zq) (b : Zq) :: List.zipWith g (castP x) (castP y)
      rw [hfg, ih y]

/-- Reduction into Z_q pushes through map of compatible operations. -/
theorem castP_map (f : Int → Int) (g : Zq → Zq)
    (hfg : ∀ a : Int, ((f a : Int) : Zq) = g (a : Zq)) (x : List Int) :
    castP (x.map f) = (castP x).map g := by
  simp only [castP]
  rw [List.map_map, List.map_map]
  refine List.map_congr_left (fun a _ => ?_)
  simp only [Function.comp_apply]
  exact hfg a

/-- Unfolding equation for ctLayer on a consumed zeta. -/
theorem ctLayer_cons (len : Nat) (z : Int) (zs a : List Int) :
    ctLayer len (z :: zs) a =
      ((a.take len).zipWith (· + ·)
          (((a.drop len).take len).map (fun b => montgomery_reduce (z * b)))
        ++ (a.take len).zipWith (· - ·)
          (((a.drop len).take len).map (fun b => montgomery_reduce (z * b))))
      ++ ctLayer len zs (a.drop (2 * len)) := rfl

/-- Unfolding equation for gsLayer on a consumed zeta. -/
theorem gsLayer_cons (len : Nat) (z : Int) (zs a : List Int) :
    gsLayer len (z :: zs) a =
      ((a.take len).zipWith (· + ·) ((a.drop len).take len)
        ++ ((a.take len).zipWith (· - ·) ((a.drop len).take len)).map
          (fun d => montgomery_reduce (z * d)))
      ++ gsLayer len zs (a.drop (2 * len)) := rfl

/-- Unfolding equation for ctLayerZ on a consumed zeta. -/
theorem ctLayerZ_cons (len : Nat) (z : Zq) (zs a : List Zq) :
    ctLayerZ len (z :: zs) a =
      ((a.take len).zipWith (· + ·)
          (((a.drop len).take len).map (fun b => z * b * RzInv))
        ++ (a.take len).zipWith (· - ·)
          (((a.drop len).take len).map (fun b => z * b * RzInv)))
      ++ ctLayerZ len zs (a.drop (2 * len)) := rfl

/-- Unfolding equation for gsLayerZ on a consumed zeta. -/
theorem gsLayerZ_cons (len : Nat) (z : Zq) (zs a : List Zq) :
    gsLayerZ len (z :: zs) a =
      ((a.take len).zipWith (· + ·) ((a.drop len).take len)
        ++ ((a.take len).zipWith (· - ·) ((a.drop len).take len)).map
          (fun d => z * d * RzInv))
      ++ gsLayerZ len zs (a.drop (2 * len)) := rfl

/-- Reducing a forward layer into Z_q gives the shadow layer. -/
theorem castP_ctLayer (len : Nat) (zs a : List Int) :
    castP (ctLayer len zs a) = ctLayerZ len (castP zs) (castP a) := by
  induction zs generalizing a with
  | nil => rfl
  | cons z zs ih =>
    have hcons : castP (z :: zs) = (z : Zq) :: castP zs := rfl
    rw [ctLayer_cons, hcons, ctLayerZ_cons]
    rw [castP_append, castP_append]
    rw [castP_zipWith (· + ·) (· + ·) (fun a b => by push_cast; ring),
      castP_zipWith (· - ·) (· - ·) (fun a b => by push_cast; ring),
      castP_map (fun b => montgomery_reduce (z * b)) (fun b => (z : Zq) * b * RzInv)
        (fun b => by rw [cast_montgomery_reduce]; push_cast; ring),
      castP_take, castP_take, castP_drop, ih (a.drop (2 * len)), castP_drop]

/-- Reducing an inverse layer into Z_q gives the shadow layer. -/
theorem castP_gsLayer (len : Nat) (zs a : List Int) :
    castP (gsLayer len zs a) = gsLayerZ len (castP zs) (castP a) := by
  induction zs generalizing a with
  | nil => rfl
  | cons z zs ih =>
    have hcons : castP (z :: zs) = (z : Zq) :: castP zs := rfl
    rw [gsLayer_cons, hcons, gsLayerZ_cons]
    rw [castP_append, castP_append]
    rw [castP_map (fun d => montgomery_reduce (z * d)) (fun d => (z : Zq) * d * RzInv)
        (fun d => by rw [cast_montgomery_reduce]; push_cast; ring),
      castP_zipWith (· + ·) (· + ·) (fun a b => by push_cast; ring),
      castP_zipWith (· - ·) (· - ·) (fun a b => by push_cast; ring),
      castP_take, castP_take, castP_drop, ih (a.drop (2 * len)), castP_drop]

/-- A shaped forward shadow layer preserves length. -/
theorem ctLayerZ_length (len : Nat) (zs a : List Zq)
    (h : a.length = 2 * len * zs.length) :
    (ctLayerZ len zs a).length = a.length := by
  induction zs generalizing a with
  | nil => rfl
  | cons z zs ih =>
    have hlen : a.length = 2 * len * zs.length + 2 * len := by
      rw [h, List.length_cons]
      ring
    rw [ctLayerZ_cons]
    have hdrop : (a.drop (2 * len)).length = 2 * len * zs.length := by
      rw [List.length_drop]
      omega
    rw [List.length_append, List.length_append, ih (a.drop (2 * len)) hdrop]
    simp only [List.length_zipWith, List.length_map, List.length_take, List.length_drop]
    omega

/-- A shaped inverse shadow layer preserves length. -/
theorem gsLayerZ_length (len : Nat) (zs a : List Zq)
    (h : a.length = 2 * len * zs.length) :
    (gsLayerZ len zs a).length = a.length := by
  induction zs generalizing a with
  | nil => rfl
  | cons z zs ih =>
    have hlen : a.length = 2 * len * zs.length + 2 * len := by
      rw [h, List.length_cons]
      ring
    rw [gsLayerZ_cons]
    have hdrop : (a.drop (2 * len)).length = 2 * len * zs.length := by
      rw [List.length_drop]
      omega
    rw [List.length_append, List.length_append, ih (a.drop (2 * len)) hdrop]
    simp only [List.length_zipWith, List.length_map, List.length_take, List.length_drop]
    omega

/-- Butterfly algebra: adding the two butterfly outputs recovers twice the
first input. -/
theorem zip_add_add_sub (x t : List Zq) (h : x.length = t.length) :
    List.zipWith (· + ·) (List.zipWith (· + ·) x t) (List.zipWith (· - ·) x t)
      = x.map (fun v => 2 * v) := by
  induction x generalizing t with
  | nil => rfl
  | cons a x ih =>
    cases t with
    | nil => simp at h
    | cons b t =>
      simp only [List.zipWith_cons_cons, List.map_cons]
      rw [ih t (by simpa using h)]
      congr 1
      ring

/-- Butterfly algebra: subtracting the two butterfly outputs recovers twice
the second input. -/
theorem zip_sub_add_sub (x t : List Zq) (h : x.length = t.length) :
    List.zipWith (· - ·) (List.zipWith (· + ·) x t) (List.zipWith (· - ·) x t)
      = t.map (fun v => 2 * v) := by
  induction x generalizing t with
  | nil =>
    have h0 : t = [] := List.length_eq_zero.mp h.symm
    rw [h0]
    rfl
  | cons a x ih =>
    cases t with
    | nil => simp at h
    | cons b t =>
      simp only [List.zipWith_cons_cons, List.map_cons]
      rw [ih t (by simpa using h)]
      congr 1
      ring

/-- Scalar maps distribute over elementwise sums. -/
theorem map_mul_zipWith_add (c : Zq) (x y : List Zq) :
    List.zipWith (· + ·) (x.map (fun v => c * v)) (y.map (fun v => c * v))
      = (List.zipWith (· + ·) x y).map (fun v => c * v) := by
  induction x generalizing y with
  | nil => simp
  | cons a x ih =>
    cases y with
    | nil => simp
    | cons b y =>
      simp only [List.map_cons, List.zipWith_cons_cons]
      rw [ih y]
      congr 1
      ring

/-- Scalar maps distribute over elementwise differences. -/
theorem map_mul_zipWith_sub (c : Zq) (x y : List Zq) :
    List.zipWith (· - ·) (x.map (fun v => c * v)) (y.map (fun v => c * v))
      = (List.zipWith (· - ·) x y).map (fun v => c * v) := by
  induction x generalizing y with
  | nil => simp
  | cons a x ih =>
    cases y with
    | nil => simp
    | cons b y =>
      simp only [List.map_cons, List.zipWith_cons_cons]
      rw [ih y]
      congr 1
      ring

/-- Forward shadow layers commute with scalar multiplication of the state. -/
theorem ctLayerZ_map_mul (c : Zq) (len : Nat) (zs a : List Zq) :
    ctLayerZ len zs (a.map (fun v => c * v)) = (ctLayerZ len zs a).map (fun v => c * v) := by
  induction zs generalizing a with
  | nil => rfl
  | cons z zs ih =>
    rw [ctLayerZ_cons, ctLayerZ_cons]
    rw [← List.map_take, ← List.map_drop, ← List.map_take, ← List.map_drop]
    have hT : (((a.drop len).take len).map (fun v => c * v)).map (fun b => z * b * RzInv)
        = (((a.drop len).take len).map (fun b => z * b * RzInv)).map (fun v => c * v) := by
      rw [List.map_map, List.map_map]
      refine List.map_congr_left (fun v _ => ?_)
      simp only [Function.comp_apply]
      ring
    rw [hT, map_mul_zipWith_add, map_mul_zipWith_sub, ih (a.drop (2 * len)),
      ← List.map_append, ← List.map_append]

/-- Inverse shadow layers commute with scalar multiplication of the state. -/
theorem gsLayerZ_map_mul (c : Zq) (len : Nat) (zs a : List Zq) :
    gsLayerZ len zs (a.map (fun v => c * v)) = (gsLayerZ len zs a).map (fun v => c * v) := by
  induction zs generalizing a with
  | nil => rfl
  | cons z zs ih =>
    rw [gsLayerZ_cons, gsLayerZ_cons]
    rw [← List.map_take, ← List.map_drop, ← List.map_take, ← List.map_drop]
    rw [map_mul_zipWith_add, map_mul_zipWith_sub]
    have hV : ((List.zipWith (· - ·) (a.take len) ((a.drop len).take len)).map
          (fun v => c * v)).map (fun d => z * d * RzInv)
        = ((List.zipWith (· - ·) (a.take len) ((a.drop len).take len)).map
          (fun d => z * d * RzInv)).map (fun v => c * v) := by
      rw [List.map_map, List.map_map]
      refine List.map_congr_left (fun v _ => ?_)
      simp only [Function.comp_apply]
      ring
    rw [hV, ih (a.drop (2 * len)), ← List.map_append, ← List.map_append]

/-- Splitting a list into its first two len-blocks and the rest. -/
theorem split_two_blocks (len : Nat) (a : List Zq) :
    a = (a.take len ++ (a.drop len).take len) ++ a.drop (2 * len) := by
  have h1 : a.take len ++ (a.drop len).take len = a.take (len + len) := (List.take_add a len len).symm
  rw [h1, show len + len = 2 * len from by ring, List.take_append_drop]

/-- Key cancellation: the product of matched forward and inverse zetas times
the two Montgomery corrections is 1. -/
theorem RRz_cancel : RRz * RzInv * RzInv = 1 := by decide

/-- One inverse shadow layer undoes one forward shadow layer up to the factor
2, when the zeta lists are matched so that each product is R^2. -/
theorem gs_ct_inv (len : Nat) (zf zi : List Zq) (a : List Zq)
    (hz : List.Forall₂ (fun z zp => z * zp = RRz) zf zi)
    (ha : a.length = 2 * len * zf.length) :
    gsLayerZ len zi (ctLayerZ len zf a) = a.map (fun v => 2 * v) := by
  induction hz generalizing a with
  | nil =>
    have h0 : a = [] := List.length_eq_zero.mp (by simpa using ha)
    rw [h0]
    rfl
  | @cons z zp zf zi hzz htail ih =>
    have hlen : a.length = 2 * len * zf.length + 2 * len := by
      rw [ha, List.length_cons]
      ring
    have hX : (a.take len).length = len := by
      rw [List.length_take]
      omega
    have hY : ((a.drop len).take len).length = len := by
      rw [List.length_take, List.length_drop]
      omega
    have hT : (((a.drop len).take len).map (fun b => z * b * RzInv)).length = len := by
      rw [List.length_map]
      exact hY
    have hB1 : (List.zipWith (· + ·) (a.take len)
        (((a.drop len).take len).map (fun b => z * b * RzInv))).length = len := by
      rw [List.length_zipWith, hX, hT]
      omega
    have hB2 : (List.zipWith (· - ·) (a.take len)
        (((a.drop len).take len).map (fun b => z * b * RzInv))).length = len := by
      rw [List.length_zipWith, hX, hT]
      omega
    rw [ctLayerZ_cons, gsLayerZ_cons]
    have h1 : ((List.zipWith (· + ·) (a.take len)
          (((a.drop len).take len).map (fun b => z * b * RzInv))
        ++ List.zipWith (· - ·) (a.take len)
          (((a.drop len).take len).map (fun b => z * b * RzInv)))
        ++ ctLayerZ len zf (a.drop (2 * len))).take len
        = List.zipWith (· + ·) (a.take len)
          (((a.drop len).take len).map (fun b => z * b * RzInv)) := by
      rw [List.append_assoc]
      have h0 := List.take_left (List.zipWith (· + ·) (a.take len)
        (((a.drop len).take len).map (fun b => z * b * RzInv)))
        (List.zipWith (· - ·) (a.take len)
          (((a.drop len).take len).map (fun b => z * b * RzInv))
          ++ ctLayerZ len zf (a.drop (2 * len)))
      rwa [hB1] at h0
    have h2 : (((List.zipWith (· + ·) (a.take len)
          (((a.drop len).take len).map (fun b => z * b * RzInv))
        ++ List.zipWith (· - ·) (a.take len)
          (((a.drop len).take len).map (fun b => z * b * RzInv)))
        ++ ctLayerZ len zf (a.drop (2 * len))).drop len).take len
        = List.zipWith (· - ·) (a.take len)
          (((a.drop len).take len).map (fun b => z * b * RzInv)) := by
      rw [List.append_assoc]
      have h0 := List.drop_left (List.zipWith (· + ·) (a.take len)
        (((a.drop len).take len).map (fun b => z * b * RzInv)))
        (List.zipWith (· - ·) (a.take len)
          (((a.drop len).take len).map (fun b => z * b * RzInv))
          ++ ctLayerZ len zf (a.drop (2 * len)))
      rw [hB1] at h0
      rw [h0]
      have h3 := List.take_left (List.zipWith (· - ·) (a.take len)
        (((a.drop len).take len).map (fun b => z * b * RzInv)))
        (ctLayerZ len zf (a.drop (2 * len)))
      rwa [hB2] at h3
    have h3 : ((List.zipWith (· + ·) (a.take len)
          (((a.drop len).take len).map (fun b => z * b * RzInv))
        ++ List.zipWith (· - ·) (a.take len)
          (((a.drop len).take len).map (fun b => z * b * RzInv)))
        ++ ctLayerZ len zf (a.drop (2 * len))).drop (2 * len)
        = ctLayerZ len zf (a.drop (2 * len)) := by
      have hBB : (List.zipWith (· + ·) (a.take len)
          (((a.drop len).take len).map (fun b => z * b * RzInv))
        ++ List.zipWith (· - ·) (a.take len)
          (((a.drop len).take len).map (fun b => z * b * RzInv))).length = 2 * len := by
        rw [List.length_append, hB1, hB2]
        ring
      have h0 := List.drop_left (List.zipWith (· + ·) (a.take len)
          (((a.drop len).take len).map (fun b => z * b * RzInv))
        ++ List.zipWith (· - ·) (a.take len)
          (((a.drop len).take len).map (fun b => z * b * RzInv)))
        (ctLayerZ len zf (a.drop (2 * len)))
      rwa [hBB] at h0
    rw [h1, h2, h3]
    rw [zip_add_add_sub (a.take len) _ (by rw [hX, hT]),
      zip_sub_add_sub (a.take len) _ (by rw [hX, hT])]
    have hmaps : ((((a.drop len).take len).map (fun b => z * b * RzInv)).map
          (fun v => 2 * v)).map (fun d => zp * d * RzInv)
        = ((a.drop len).take len).map (fun v => 2 * v) := by
      rw [List.map_map, List.map_map]
      refine List.map_congr_left (fun b _ => ?_)
      simp only [Function.comp_apply]
      calc zp * (2 * (z * b * RzInv)) * RzInv
          = (z * zp * RzInv * RzInv) * (2 * b) := by ring
        _ = (RRz * RzInv * RzInv) * (2 * b) := by rw [hzz]
        _ = 1 * (2 * b) := by rw [RRz_cancel]
        _ = 2 * b := by rw [one_mul]
    rw [hmaps]
    have hdrop : (a.drop (2 * len)).length = 2 * len * zf.length := by
      rw [List.length_drop]
      omega
    rw [ih (a.drop (2 * len)) hdrop]
    calc (a.take len).map (fun v => 2 * v)
          ++ ((a.drop len).take len).map (fun v => 2 * v)
          ++ (a.drop (2 * len)).map (fun v => 2 * v)
        = ((a.take len ++ (a.drop len).take len) ++ a.drop (2 * len)).map
            (fun v => 2 * v) := by
          rw [List.map_append, List.map_append]
      _ = a.map (fun v => 2 * v) := by rw [← split_two_blocks]

/-- One forward shadow layer undoes one inverse shadow layer up to the factor
2, under the same zeta matching. -/
theorem ct_gs_inv (len : Nat) (zf zi : List Zq) (a : List Zq)
    (hz : List.Forall₂ (fun z zp => z * zp = RRz) zf zi)
    (ha : a.length = 2 * len * zf.length) :
    ctLayerZ len zf (gsLayerZ len zi a) = a.map (fun v => 2 * v) := by
  induction hz generalizing a with
  | nil =>
    have h0 : a = [] := List.length_eq_zero.mp (by simpa using ha)
    rw [h0]
    rfl
  | @cons z zp zf zi hzz htail ih =>
    have hlen : a.length = 2 * len * zf.length + 2 * len := by
      rw [ha, List.length_cons]
      ring
    have hX : (a.take len).length = len := by
      rw [List.length_take]
      omega
    have hY : ((a.drop len).take len).length = len := by
      rw [List.length_take, List.length_drop]
      omega
    have hU : (List.zipWith (· + ·) (a.take len) ((a.drop len).take len)).length = len := by
      rw [List.length_zipWith, hX, hY]
      omega
    have hV : ((List.zipWith (· - ·) (a.take len) ((a.drop len).take len)).map
        (fun d => zp * d * RzInv)).length = len := by
      rw [List.length_map, List.length_zipWith, hX, hY]
      omega
    rw [gsLayerZ_cons, ctLayerZ_cons]
    have h1 : ((List.zipWith (· + ·) (a.take len) ((a.drop len).take len)
        ++ (List.zipWith (· - ·) (a.take len) ((a.drop len).take len)).map
          (fun d => zp * d * RzInv))
        ++ gsLayerZ len zi (a.drop (2 * len))).take len
        = List.zipWith (· + ·) (a.take len) ((a.drop len).take len) := by
      rw [List.append_assoc]
      have h0 := List.take_left (List.zipWith (· + ·) (a.take len) ((a.drop len).take len))
        ((List.zipWith (· - ·) (a.take len) ((a.drop len).take len)).map
          (fun d => zp * d * RzInv) ++ gsLayerZ len zi (a.drop (2 * len)))
      rwa [hU] at h0
    have h2 : (((List.zipWith (· + ·) (a.take len) ((a.drop len).take len)
        ++ (List.zipWith (· - ·) (a.take len) ((a.drop len).take len)).map
          (fun d => zp * d * RzInv))
        ++ gsLayerZ len zi (a.drop (2 * len))).drop len).take len
        = (List.zipWith (· - ·) (a.take len) ((a.drop len).take len)).map
          (fun d => zp * d * RzInv) := by
      rw [List.append_assoc]
      have h0 := List.drop_left (List.zipWith (· + ·) (a.take len) ((a.drop len).take len))
        ((List.zipWith (· - ·) (a.take len) ((a.drop len).take len)).map
          (fun d => zp * d * RzInv) ++ gsLayerZ len zi (a.drop (2 * len)))
      rw [hU] at h0
      rw [h0]
      have h3 := List.take_left ((List.zipWith (· - ·) (a.take len)
          ((a.drop len).take len)).map (fun d => zp * d * RzInv))
        (gsLayerZ len zi (a.drop (2 * len)))
      rwa [hV] at h3
    have h3 : ((List.zipWith (· + ·) (a.take len) ((a.drop len).take len)
        ++ (List.zipWith (· - ·) (a.take len) ((a.drop len).take len)).map
          (fun d => zp * d * RzInv))
        ++ gsLayerZ len zi (a.drop (2 * len))).drop (2 * len)
        = gsLayerZ len zi (a.drop (2 * len)) := by
      have hBB : (List.zipWith (· + ·) (a.take len) ((a.drop len).take len)
          ++ (List.zipWith (· - ·) (a.take len) ((a.drop len).take len)).map
            (fun d => zp * d * RzInv)).length = 2 * len := by
        rw [List.length_append, hU, hV]
        ring
      have h0 := List.drop_left (List.zipWith (· + ·) (a.take len) ((a.drop len).take len)
          ++ (List.zipWith (· - ·) (a.take len) ((a.drop len).take len)).map
            (fun d => zp * d * RzInv))
        (gsLayerZ len zi (a.drop (2 * len)))
      rwa [hBB] at h0
    rw [h1, h2, h3]
    have hT : (((List.zipWith (· - ·) (a.take len) ((a.drop len).take len)).map
          (fun d => zp * d * RzInv)).map (fun b => z * b * RzInv))
        = List.zipWith (· - ·) (a.take len) ((a.drop len).take len) := by
      rw [List.map_map]
      have hid : ∀ d ∈ List.zipWith (· - ·) (a.take len) ((a.drop len).take len),
          ((fun b => z * b * RzInv) ∘ fun d => zp * d * RzInv) d = id d := by
        intro d _
        simp only [Function.comp_apply, id]
        calc z * (zp * d * RzInv) * RzInv = (z * zp * RzInv * RzInv) * d := by ring
          _ = (RRz * RzInv * RzInv) * d := by rw [hzz]
          _ = 1 * d := by rw [RRz_cancel]
          _ = d := by rw [one_mul]
      rw [List.map_congr_left hid, List.map_id]
    rw [hT]
    rw [zip_add_add_sub (a.take len) ((a.drop len).take len) (by rw [hX, hY]),
      zip_sub_add_sub (a.take len) ((a.drop len).take len) (by rw [hX, hY])]
    have hdrop : (a.drop (2 * len)).length = 2 * len * zf.length := by
      rw [List.length_drop]
      omega
    rw [ih (a.drop (2 * len)) hdrop]
    calc (a.take len).map (fun v => 2 * v)
          ++ ((a.drop len).take len).map (fun v => 2 * v)
          ++ (a.drop (2 * len)).map (fun v => 2 * v)
        = ((a.take len ++ (a.drop len).take len) ++ a.drop (2 * len)).map
            (fun v => 2 * v) := by
          rw [List.map_append, List.map_append]
      _ = a.map (fun v => 2 * v) := by rw [← split_two_blocks]

/-- Length of the forward zeta list of a layer. -/
theorem fwdZetasZ_length (len : Nat) : (fwdZetasZ len).length = 128 / len := by
  simp [fwdZetasZ, castP_length, fwdZetas]

/-- Length of the inverse zeta list of a layer. -/
theorem invZetasZ_length (len : Nat) : (invZetasZ len).length = 128 / len := by
  simp [invZetasZ, castP_length, invZetas]

/-- Scalar factors merge across nested maps. -/
theorem map_mul_mul (c d e : Zq) (hcd : ∀ v : Zq, c * (d * v) = e * v) (a : List Zq) :
    (a.map (fun v => d * v)).map (fun v => c * v) = a.map (fun v => e * v) := by
  rw [List.map_map]
  refine List.map_congr_left (fun v _ => ?_)
  simp only [Function.comp_apply]
  exact hcd v

/-- Zeta pairing of corresponding forward and inverse layers: every product of
matched zetas is R^2 in Z_q (the exponents of zeta sum to 256 and
zeta^256 = -1 mod q). -/
theorem zetas_pair_shape (m : Nat)
    (h : ∀ i ∈ List.range (128 / m),
      ((zetas (128 / m + i) : Int) : Zq) * ((- zetas (256 / m - 1 - i) : Int) : Zq) = RRz) :
    List.Forall₂ (fun z zp => z * zp = RRz) (fwdZetasZ m) (invZetasZ m) := by
  simp only [fwdZetasZ, invZetasZ, fwdZetas, invZetas, castP, List.map_map]
  rw [List.forall₂_map_left_iff, List.forall₂_map_right_iff]
  refine List.forall₂_same.mpr ?_
  intro i hi
  simp only [Function.comp_apply]
  exact h i hi

/-- Layer-128 zeta pairing. -/
theorem zetas_pair_128 :
    List.Forall₂ (fun z zp => z * zp = RRz) (fwdZetasZ 128) (invZetasZ 128) :=
  zetas_pair_shape 128 (by decide)

/-- Layer-64 zeta pairing. -/
theorem zetas_pair_64 :
    List.Forall₂ (fun z zp => z * zp = RRz) (fwdZetasZ 64) (invZetasZ 64) :=
  zetas_pair_shape 64 (by decide)

/-- Layer-32 zeta pairing. -/
theorem zetas_pair_32 :
    List.Forall₂ (fun z zp => z * zp = RRz) (fwdZetasZ 32) (invZetasZ 32) :=
  zetas_pair_shape 32 (by decide)

/-- Layer-16 zeta pairing. -/
theorem zetas_pair_16 :
    List.Forall₂ (fun z zp => z * zp = RRz) (fwdZetasZ 16) (invZetasZ 16) :=
  zetas_pair_shape 16 (by decide)

/-- Layer-8 zeta pairing. -/
theorem zetas_pair_8 :
    List.Forall₂ (fun z zp => z * zp = RRz) (fwdZetasZ 8) (invZetasZ 8) :=
  zetas_pair_shape 8 (by decide)

/-- Layer-4 zeta pairing. -/
theorem zetas_pair_4 :
    List.Forall₂ (fun z zp => z * zp = RRz) (fwdZetasZ 4) (invZetasZ 4) :=
  zetas_pair_shape 4 (by decide)

/-- Layer-2 zeta pairing. -/
theorem zetas_pair_2 :
    List.Forall₂ (fun z zp => z * zp = RRz) (fwdZetasZ 2) (invZetasZ 2) :=
  zetas_pair_shape 2 (by decide)

/-- Layer-1 zeta pairing. -/
theorem zetas_pair_1 :
    List.Forall₂ (fun z zp => z * zp = RRz) (fwdZetasZ 1) (invZetasZ 1) :=
  zetas_pair_shape 1 (by decide)

/-- The eight inverse shadow layers and the final scaling undo the eight
forward shadow layers up to the Montgomery factor R. -/
theorem invnttZ_nttZ (b : List Zq) (hb : b.length = 256) :
    invnttZ (nttZ b) = b.map (fun v => Rz * v) := by
  simp only [nttZ, invnttZ]
  set b7 := ctLayerZ 128 (fwdZetasZ 128) b with hb7
  set b6 := ctLayerZ 64 (fwdZetasZ 64) b7 with hb6
  set b5 := ctLayerZ 32 (fwdZetasZ 32) b6 with hb5
  set b4 := ctLayerZ 16 (fwdZetasZ 16) b5 with hb4
  set b3 := ctLayerZ 8 (fwdZetasZ 8) b4 with hb3
  set b2 := ctLayerZ 4 (fwdZetasZ 4) b3 with hb2
  set b1 := ctLayerZ 2 (fwdZetasZ 2) b2 with hb1
  have L7 : b7.length = 256 := by
    rw [hb7, ctLayerZ_length 128 (fwdZetasZ 128) b (by simp [hb, fwdZetasZ_length])]
    exact hb
  have L6 : b6.length = 256 := by
    rw [hb6, ctLayerZ_length 64 (fwdZetasZ 64) b7 (by simp [L7, fwdZetasZ_length])]
    exact L7
  have L5 : b5.length = 256 := by
    rw [hb5, ctLayerZ_length 32 (fwdZetasZ 32) b6 (by simp [L6, fwdZetasZ_length])]
    exact L6
  have L4 : b4.length = 256 := by
    rw [hb4, ctLayerZ_length 16 (fwdZetasZ 16) b5 (by simp [L5, fwdZetasZ_length])]
    exact L5
  have L3 : b3.length = 256 := by
    rw [hb3, ctLayerZ_length 8 (fwdZetasZ 8) b4 (by simp [L4, fwdZetasZ_length])]
    exact L4
  have L2 : b2.length = 256 := by
    rw [hb2, ctLayerZ_length 4 (fwdZetasZ 4) b3 (by simp [L3, fwdZetasZ_length])]
    exact L3
  have L1 : b1.length = 256 := by
    rw [hb1, ctLayerZ_length 2 (fwdZetasZ 2) b2 (by simp [L2, fwdZetasZ_length])]
    exact L2
  rw [gs_ct_inv 1 (fwdZetasZ 1) (invZetasZ 1) b1 zetas_pair_1
    (by simp [L1, fwdZetasZ_length])]
  simp only [gsLayerZ_map_mul]
  rw [hb1, gs_ct_inv 2 (fwdZetasZ 2) (invZetasZ 2) b2 zetas_pair_2
    (by simp [L2, fwdZetasZ_length])]
  simp only [gsLayerZ_map_mul]
  rw [map_mul_mul 2 2 4 (fun v => by ring)]
  rw [hb2, gs_ct_inv 4 (fwdZetasZ 4) (invZetasZ 4) b3 zetas_pair_4
    (by simp [L3, fwdZetasZ_length])]
  simp only [gsLayerZ_map_mul]
  rw [map_mul_mul 4 2 8 (fun v => by ring)]
  rw [hb3, gs_ct_inv 8 (fwdZetasZ 8) (invZetasZ 8) b4 zetas_pair_8
    (by simp [L4, fwdZetasZ_length])]
  simp only [gsLayerZ_map_mul]
  rw [map_mul_mul 8 2 16 (fun v => by ring)]
  rw [hb4, gs_ct_inv 16 (fwdZetasZ 16) (invZetasZ 16) b5 zetas_pair_16
    (by simp [L5, fwdZetasZ_length])]
  simp only [gsLayerZ_map_mul]
  rw [map_mul_mul 16 2 32 (fun v => by ring)]
  rw [hb5, gs_ct_inv 32 (fwdZetasZ 32) (invZetasZ 32) b6 zetas_pair_32
    (by simp [L6, fwdZetasZ_length])]
  simp only [gsLayerZ_map_mul]
  rw [map_mul_mul 32 2 64 (fun v => by ring)]
  rw [hb6, gs_ct_inv 64 (fwdZetasZ 64) (invZetasZ 64) b7 zetas_pair_64
    (by simp [L7, fwdZetasZ_length])]
  simp only [gsLayerZ_map_mul]
  rw [map_mul_mul 64 2 128 (fun v => by ring)]
  rw [hb7, gs_ct_inv 128 (fwdZetasZ 128) (invZetasZ 128) b zetas_pair_128
    (by simp [hb, fwdZetasZ_length])]
  rw [map_mul_mul 128 2 256 (fun v => by ring)]
  rw [map_mul_mul (Fz * RzInv) 256 Rz (fun v => by
    have h : Fz * RzInv * 256 = Rz := by decide
    calc Fz * RzInv * ((256 : Zq) * v) = (Fz * RzInv * 256) * v := by ring
      _ = Rz * v := by rw [h])]

/-- The eight forward shadow layers undo the scaled inverse shadow layers up
to the Montgomery factor R. -/
theorem nttZ_invnttZ (b : List Zq) (hb : b.length = 256) :
    nttZ (invnttZ b) = b.map (fun v => Rz * v) := by
  simp only [nttZ, invnttZ]
  set g7 := gsLayerZ 1 (invZetasZ 1) b with hg7
  set g6 := gsLayerZ 2 (invZetasZ 2) g7 with hg6
  set g5 := gsLayerZ 4 (invZetasZ 4) g6 with hg5
  set g4 := gsLayerZ 8 (invZetasZ 8) g5 with hg4
  set g3 := gsLayerZ 16 (invZetasZ 16) g4 with hg3
  set g2 := gsLayerZ 32 (invZetasZ 32) g3 with hg2
  set g1 := gsLayerZ 64 (invZetasZ 64) g2 with hg1
  set g0 := gsLayerZ 128 (invZetasZ 128) g1 with hg0
  have Lg7 : g7.length = 256 := by
    rw [hg7, gsLayerZ_length 1 (invZetasZ 1) b (by simp [hb, invZetasZ_length])]
    exact hb
  have Lg6 : g6.length = 256 := by
    rw [hg6, gsLayerZ_length 2 (invZetasZ 2) g7 (by simp [Lg7, invZetasZ_length])]
    exact Lg7
  have Lg5 : g5.length = 256 := by
    rw [hg5, gsLayerZ_length 4 (invZetasZ 4) g6 (by simp [Lg6, invZetasZ_length])]
    exact Lg6
  have Lg4 : g4.length = 256 := by
    rw [hg4, gsLayerZ_length 8 (invZetasZ 8) g5 (by simp [Lg5, invZetasZ_length])]
    exact Lg5
  have Lg3 : g3.length = 256 := by
    rw [hg3, gsLayerZ_length 16 (invZetasZ 16) g4 (by simp [Lg4, invZetasZ_length])]
    exact Lg4
  have Lg2 : g2.length = 256 := by
    rw [hg2, gsLayerZ_length 32 (invZetasZ 32) g3 (by simp [Lg3, invZetasZ_length])]
    exact Lg3
  have Lg1 : g1.length = 256 := by
    rw [hg1, gsLayerZ_length 64 (invZetasZ 64) g2 (by simp [Lg2, invZetasZ_length])]
    exact Lg2
  simp only [ctLayerZ_map_mul]
  rw [hg0, ct_gs_inv 128 (fwdZetasZ 128) (invZetasZ 128) g1 zetas_pair_128
    (by simp [Lg1, fwdZetasZ_length])]
  simp only [ctLayerZ_map_mul]
  rw [hg1, ct_gs_inv 64 (fwdZetasZ 64) (invZetasZ 64) g2 zetas_pair_64
    (by simp [Lg2, fwdZetasZ_length])]
  simp only [ctLayerZ_map_mul]
  rw [map_mul_mul 2 2 4 (fun v => by ring)]
  rw [hg2, ct_gs_inv 32 (fwdZetasZ 32) (invZetasZ 32) g3 zetas_pair_32
    (by simp [Lg3, fwdZetasZ_length])]
  simp only [ctLayerZ_map_mul]
  rw [map_mul_mul 4 2 8 (fun v => by ring)]
  rw [hg3, ct_gs_inv 16 (fwdZetasZ 16) (invZetasZ 16) g4 zetas_pair_16
    (by simp [Lg4, fwdZetasZ_length])]
  simp only [ctLayerZ_map_mul]
  rw [map_mul_mul 8 2 16 (fun v => by ring)]
  rw [hg4, ct_gs_inv 8 (fwdZetasZ 8) (invZetasZ 8) g5 zetas_pair_8
    (by simp [Lg5, fwdZetasZ_length])]
  simp only [ctLayerZ_map_mul]
  rw [map_mul_mul 16 2 32 (fun v => by ring)]
  rw [hg5, ct_gs_inv 4 (fwdZetasZ 4) (invZetasZ 4) g6 zetas_pair_4
    (by simp [Lg6, fwdZetasZ_length])]
  simp only [ctLayerZ_map_mul]
  rw [map_mul_mul 32 2 64 (fun v => by ring)]
  rw [hg6, ct_gs_inv 2 (fwdZetasZ 2) (invZetasZ 2) g7 zetas_pair_2
    (by simp [Lg7, fwdZetasZ_length])]
  simp only [ctLayerZ_map_mul]
  rw [map_mul_mul 64 2 128 (fun v => by ring)]
  rw [hg7, ct_gs_inv 1 (fwdZetasZ 1) (invZetasZ 1) b zetas_pair_1
    (by simp [hb, fwdZetasZ_length])]
  rw [map_mul_mul 128 2 256 (fun v => by ring)]
  rw [map_mul_mul (Fz * RzInv) 256 Rz (fun v => by
    have h : Fz * RzInv * 256 = Rz := by decide
    calc Fz * RzInv * ((256 : Zq) * v) = (Fz * RzInv * 256) * v := by ring
      _ = Rz * v := by rw [h])]

/-- Reducing the integer forward NTT into Z_q gives the shadow NTT. -/
theorem castP_ntt (a : List Int) : castP (ntt a) = nttZ (castP a) := by
  simp only [ntt, nttZ, fwdZetasZ]
  rw [castP_ctLayer, castP_ctLayer, castP_ctLayer, castP_ctLayer, castP_ctLayer,
    castP_ctLayer, castP_ctLayer, castP_ctLayer]

/-- Reducing the integer inverse NTT into Z_q gives the shadow inverse NTT. -/
theorem castP_invntt (a : List Int) : castP (invntt_tomont a) = invnttZ (castP a) := by
  simp only [invntt_tomont, invnttZ, invZetasZ]
  rw [castP_map (fun x => montgomery_reduce (F * x)) (fun x => Fz * RzInv * x)
    (fun x => by
      rw [cast_montgomery_reduce]
      push_cast
      have hF : ((F : Int) : Zq) = Fz := by decide
      rw [hF]
      ring)]
  rw [castP_gsLayer, castP_gsLayer, castP_gsLayer, castP_gsLayer, castP_gsLayer,
    castP_gsLayer, castP_gsLayer, castP_gsLayer]

/-- Composing the integer inverse NTT after the forward NTT multiplies every
coefficient by R modulo q. -/
theorem invntt_ntt_mont (a : List Int) (ha : a.length = 256) :
    castP (invntt_tomont (ntt a)) = (castP a).map (fun v => Rz * v) := by
  rw [castP_invntt, castP_ntt]
  exact invnttZ_nttZ (castP a) (by rw [castP_length, ha])

/-- Composing the integer forward NTT after the inverse NTT multiplies every
coefficient by R modulo q. -/
theorem ntt_invntt_mont (a : List Int) (ha : a.length = 256) :
    castP (ntt (invntt_tomont a)) = (castP a).map (fun v => Rz * v) := by
  rw [castP_ntt, castP_invntt]
  exact nttZ_invnttZ (castP a) (by rw [castP_length, ha])

/-- getD commutes with map at in-range indices. -/
theorem getD_map_of_lt (f : Zq → Zq) (l : List Zq) (i : Nat) (hi : i < l.length) :
    (l.map f).getD i 0 = f (l.getD i 0) := by
  rw [List.getD_eq_getElem l 0 hi,
    List.getD_eq_getElem (l.map f) 0 (by rw [List.length_map]; exact hi)]
  simp [List.getElem_map]

/-- getD commutes with the reduction into Z_q at in-range indices. -/
theorem getD_castP (l : List Int) (i : Nat) (hi : i < l.length) :
    (castP l).getD i 0 = ((l.getD i 0 : Int) : Zq) := by
  rw [List.getD_eq_getElem l 0 hi,
    List.getD_eq_getElem (castP l) 0 (by rw [castP_length]; exact hi)]
  simp [castP, List.getElem_map]

/-- Transfer of the Z_q list identity to coefficient-wise integer congruences:
when the reduction of r equals the reduction of a scaled by R, every
coefficient of r is congruent to 4193792 times the coefficient of a mod q. -/
theorem getD_mont_congruence (a r : List Int) (ha : a.length = 256)
    (h : castP r = (castP a).map (fun v => Rz * v)) :
    ∀ i, i < 256 → r.getD i 0 ≡ 4193792 * a.getD i 0 [ZMOD QI] := by
  intro i hi
  have hra : (castP r).length = 256 := by
    rw [h, List.length_map, castP_length, ha]
  have hrl : r.length = 256 := by
    rw [← castP_length r]
    exact hra
  have hia : i < a.length := by omega
  have hir : i < r.length := by omega
  have hica : i < (castP a).length := by rw [castP_length]; omega
  have hel : (castP r).getD i 0 = ((castP a).map (fun v => Rz * v)).getD i 0 := by
    rw [h]
  rw [getD_castP r i hir, getD_map_of_lt (fun v => Rz * v) (castP a) i hica,
    getD_castP a i hia] at hel
  have hcast : ((r.getD i 0 : Int) : Zq) = ((4193792 * a.getD i 0 : Int) : Zq) := by
    rw [hel]
    push_cast
    have hRz : (4193792 : Zq) = Rz := by decide
    rw [hRz]
  have hmod : r.getD i 0 ≡ 4193792 * a.getD i 0 [ZMOD ((Q : Nat) : Int)] :=
    (ZMod.intCast_eq_intCast_iff _ _ _).mp hcast
  show r.getD i 0 ≡ 4193792 * a.getD i 0 [ZMOD ((Q : Nat) : Int)]
  exact hmod

/-- C3 (amended): composing ntt and invntt_tomont, in either order, is not
the identity (nor minus the identity) mod q but the identity scaled by the
Montgomery factor R = 2^32 mod q = 4193792: for every polynomial of 256
coefficients, in particular every reduced one, each output coefficient is
congruent to 4193792 times the corresponding input coefficient modulo q. -/
theorem ntt_invntt_montgomery_identity (a : List Int) (ha : a.length = 256)
    (hred : ∀ c ∈ a, 0 ≤ c ∧ c < QI) :
    ∀ i, i < 256 →
      ((invntt_tomont (ntt a)).getD i 0 ≡ 4193792 * a.getD i 0 [ZMOD QI]) ∧
      ((ntt (invntt_tomont a)).getD i 0 ≡ 4193792 * a.getD i 0 [ZMOD QI]) :=
  fun i hi =>
    ⟨getD_mont_congruence a (invntt_tomont (ntt a)) ha (invntt_ntt_mont a ha) i hi,
     getD_mont_congruence a (ntt (invntt_tomont a)) ha (ntt_invntt_mont a ha) i hi⟩

/-- C3 counterexample: on the concrete basis polynomial e0 = (1, 0, ..., 0),
whose coefficients are reduced, the composition invntt_tomont after ntt does
not return the first coefficient to 1 or -1 mod q: it lands on the Montgomery
factor 4193792 instead, so the composition is not the identity up to sign. -/
theorem ntt_invntt_not_identity :
    ¬ (((invntt_tomont (ntt e0)).getD 0 0 ≡ e0.getD 0 0 [ZMOD QI]) ∨
       ((invntt_tomont (ntt e0)).getD 0 0 ≡ -(e0.getD 0 0) [ZMOD QI])) := by
  have hlen : e0.length = 256 := by decide
  have h := getD_mont_congruence e0 (invntt_tomont (ntt e0)) hlen
    (invntt_ntt_mont e0 hlen) 0 (by norm_num)
  have he0 : e0.getD 0 0 = 1 := rfl
  rw [he0] at h
  rintro (hc | hc)
  · rw [he0] at hc
    have : (4193792 * 1 : Int) ≡ 1 [ZMOD QI] := h.symm.trans hc
    exact absurd this (by decide)
  · rw [he0] at hc
    have : (4193792 * 1 : Int) ≡ -1 [ZMOD QI] := h.symm.trans hc
    exact absurd this (by decide)

/-- C3 witness: the amended theorem applied to the concrete reduced
polynomial e0. -/
theorem ntt_invntt_montgomery_identity_witness :
    e0.length = 256 ∧
    (∀ i, i < 256 →
      ((invntt_tomont (ntt e0)).getD i 0 ≡ 4193792 * e0.getD i 0 [ZMOD QI]) ∧
      ((ntt (invntt_tomont e0)).getD i 0 ≡ 4193792 * e0.getD i 0 [ZMOD QI])) :=
  ⟨by decide, ntt_invntt_montgomery_identity e0 (by decide) (by decide)⟩

end Dilithium
